import Mathlib

/-!
# Verification of the sing-box rule compiler (`src/sing-box/compile-rules.ts`)

Shallow embedding of the classification / normalization / accumulation pipeline.
Strings are modelled as `List Char` (JavaScript strings are sequences of code
units; every token handled by this program is ASCII, and the embedding models
the ASCII behaviour of `trim`, `toLowerCase`, `split`, `startsWith`,
`includes`).  `Tok` abbreviates the token type.
-/

abbrev Tok := List Char

/-- JavaScript whitespace recognised by `String.prototype.trim` (ASCII part). -/
def isWS (c : Char) : Bool :=
  c == ' ' || c == '\t' || c == '\n' || c == '\r' || c == '\x0b' || c == '\x0c'

/-- Drop trailing whitespace (helper for `jsTrim`). -/
def trimEnd (l : Tok) : Tok :=
  (l.reverse.dropWhile isWS).reverse

/-- `value.trim()`: drop leading and trailing whitespace. -/
def jsTrim (l : Tok) : Tok :=
  trimEnd (l.dropWhile isWS)

/-- ASCII lowering of one character, as `String.prototype.toLowerCase` acts on
`A`–`Z` (all tokens handled by the program are ASCII); spelled out as a table
so that its properties are provable by finite case analysis. -/
def lowerChar (c : Char) : Char :=
  if c == 'A' then 'a' else if c == 'B' then 'b' else if c == 'C' then 'c'
  else if c == 'D' then 'd' else if c == 'E' then 'e' else if c == 'F' then 'f'
  else if c == 'G' then 'g' else if c == 'H' then 'h' else if c == 'I' then 'i'
  else if c == 'J' then 'j' else if c == 'K' then 'k' else if c == 'L' then 'l'
  else if c == 'M' then 'm' else if c == 'N' then 'n' else if c == 'O' then 'o'
  else if c == 'P' then 'p' else if c == 'Q' then 'q' else if c == 'R' then 'r'
  else if c == 'S' then 's' else if c == 'T' then 't' else if c == 'U' then 'u'
  else if c == 'V' then 'v' else if c == 'W' then 'w' else if c == 'X' then 'x'
  else if c == 'Y' then 'y' else if c == 'Z' then 'z' else c

/-- `value.toLowerCase()` (ASCII model). -/
def jsToLower (l : Tok) : Tok :=
  l.map lowerChar

/-- `s.startsWith(p)`: `hasPre p l` is true when `p` is an initial segment of `l`. -/
def hasPre : List Char → List Char → Bool
  | [], _ => true
  | _ :: _, [] => false
  | p :: ps, c :: cs => p == c && hasPre ps cs

/-- `value.split(sep)` for a one-character separator: JavaScript semantics,
the result always has `count sep + 1` parts and empty parts are kept. -/
def splitOn (sep : Char) : List Char → List (List Char)
  | [] => [[]]
  | c :: cs =>
    let r := splitOn sep cs
    if c == sep then [] :: r
    else
      match r with
      | [] => [[c]]
      | p :: ps => (c :: p) :: ps

/-- `/^\d+$/.test(p)`: non-empty and all decimal digits. -/
def isDigits (l : Tok) : Bool :=
  !l.isEmpty && l.all Char.isDigit

/-- Numeric value of a digit string, as `Number(p)` computes it for the strings
that reach it in this program (all-digit strings, and `""` which is `0`). -/
def digitsToNat (l : Tok) : Nat :=
  l.foldl (fun n c => n * 10 + (c.toNat - 48)) 0

/-- `isIPv4` from the source: split on `.` into exactly 4 parts, each all-digit
with value in `[0, 255]`. -/
def isIPv4 (value : Tok) : Bool :=
  let parts := splitOn '.' value
  decide (parts.length = 4) && parts.all fun p => isDigits p && decide (digitsToNat p ≤ 255)

/-- A character matched by the class `[0-9a-fA-F]`. -/
def isHexChar (c : Char) : Bool :=
  c.isDigit || ('a' ≤ c && c ≤ 'f') || ('A' ≤ c && c ≤ 'F')

/-- `isIPv6` from the source: contains `:` and matches `/^[0-9a-fA-F:]+$/`. -/
def isIPv6 (value : Tok) : Bool :=
  value.contains ':' && value.all fun c => isHexChar c || c == ':'

/-- The three-way classification the spec calls `classifyIp`; the source
performs exactly this dispatch inline (`isIPv4` first, then `isIPv6`) in
`normalizeCidr` and `isIpOrCidr`. -/
inductive IpClass | IPv4 | IPv6 | NotIp
deriving DecidableEq, Repr

def classifyIp (value : Tok) : IpClass :=
  if isIPv4 value then .IPv4 else if isIPv6 value then .IPv6 else .NotIp

/-- `normalizeDomainSuffix` from the source: trim, lowercase, strip a leading
`*.` if present, and afterwards strip a leading `.` if present (two
independent `if`s in the source, not an `if`/`else`). -/
def normalizeDomainSuffix (value : Tok) : Tok :=
  let v0 := jsToLower (jsTrim value)
  let v1 := if hasPre ['*', '.'] v0 then v0.drop 2 else v0
  if hasPre ['.'] v1 then v1.drop 1 else v1

/-- `normalizeCidr` from the source: trim; keep unchanged if it contains `/`;
else append `/32` for IPv4, `/128` for IPv6, otherwise pass through. -/
def normalizeCidr (value : Tok) : Tok :=
  let v := jsTrim value
  if v.contains '/' then v
  else if isIPv4 v then v ++ ['/', '3', '2']
  else if isIPv6 v then v ++ ['/', '1', '2', '8']
  else v

/-- `isIpOrCidr` from the source.  `v.split("/", 2)` keeps only the first two
segments of the full split (text after a second `/` is discarded); the
destructuring `[ip, prefix]` leaves the prefix `undefined` when there is no
`/`, which the two match arms model.  `Number("")` is `0`, which
`digitsToNat []` matches. -/
def isIpOrCidr (value : Tok) : Bool :=
  let v := jsTrim value
  match splitOn '/' v with
  | [] => false
  | [ip] =>
    if ip.isEmpty then false
    else if isIPv4 ip then true
    else if isIPv6 ip then true
    else false
  | ip :: pfx :: _ =>
    if ip.isEmpty then false
    else if !pfx.isEmpty && !isDigits pfx then false
    else if isIPv4 ip then decide (digitsToNat pfx ≤ 32)
    else if isIPv6 ip then decide (digitsToNat pfx ≤ 128)
    else false

/-- Per-outbound accumulator (`OutboundData` in the source). -/
structure OutboundData where
  domains : List Tok
  subnets : List Tok
deriving DecidableEq, Repr

/-- `addMixedEntry` from the source: trim; skip blank; IP/CIDR to `subnets`
via `normalizeCidr`; anything else to `domains` via `normalizeDomainSuffix`. -/
def addMixedEntry (value : Tok) (data : OutboundData) : OutboundData :=
  let v := jsTrim value
  if v.isEmpty then data
  else if isIpOrCidr v then { data with subnets := data.subnets ++ [normalizeCidr v] }
  else { data with domains := data.domains ++ [normalizeDomainSuffix v] }

/-- The Source Loader collaborator (`readLines` in the source) is I/O; the
embedding abstracts it as a function from a source identifier to the loaded
lines, as §6 of the spec describes. -/
abbrev Loader := Tok → List Tok

/-- The body of the `for (const entry of rule.list)` loop in `main`: trim, skip
blank, IP/CIDR to subnets, URL-or-path entries loaded and fed line by line to
`addMixedEntry`, anything else to domains. -/
def processMixedEntry (loader : Loader) (entry : Tok) (data : OutboundData) : OutboundData :=
  let v := jsTrim entry
  if v.isEmpty then data
  else if isIpOrCidr v then { data with subnets := data.subnets ++ [normalizeCidr v] }
  else if hasPre "http://".data v || hasPre "https://".data v || v.contains '/' then
    (loader v).foldl (fun d line => addMixedEntry line d) data
  else { data with domains := data.domains ++ [normalizeDomainSuffix v] }

/-- A `Rule` record from the parsed configuration (`RuleDeclaration` in the
spec): optional `domains` source, optional `subnets` source, optional mixed
`list` (absent modelled as `[]`, matching the `rule.list && rule.list.length > 0`
guard), and the outbound key. -/
structure Rule where
  domains : Option Tok
  subnets : Option Tok
  list : List Tok
  outbound : Tok

/-- One iteration of the main loop over `config.rules`, acting on the
accumulator of `rule.outbound`.  JavaScript truthiness: an absent or empty
`domains`/`subnets` string is skipped (`if (rule.domains)`), and the `list`
branch runs only when the list is present and non-empty. -/
def processRule (loader : Loader) (rule : Rule) (data : OutboundData) : OutboundData :=
  let d1 := match rule.domains with
    | some src =>
      if src.isEmpty then data
      else { data with domains := data.domains ++ (loader src).map normalizeDomainSuffix }
    | none => data
  let d2 := match rule.subnets with
    | some src =>
      if src.isEmpty then d1
      else { d1 with subnets := d1.subnets ++ (loader src).map normalizeCidr }
    | none => d1
  if 0 < rule.list.length then
    rule.list.foldl (fun d e => processMixedEntry loader e d) d2
  else d2

/-- The outbound map after processing every declaration, starting from the
empty map (`new Map()`); accumulators are created lazily as
`{ domains: [], subnets: [] }`, which the total function with empty default
models. -/
def runRules (loader : Loader) (rules : List Rule) : Tok → OutboundData :=
  rules.foldl
    (fun st rule k => if k = rule.outbound then processRule loader rule (st k) else st k)
    (fun _ => ⟨[], []⟩)

/-- `[...new Set(xs)]`: keep each element the first time it appears, tracking
the set of elements already seen. -/
def dedupAux (seen : List Tok) : List Tok → List Tok
  | [] => []
  | x :: xs => if x ∈ seen then dedupAux seen xs else x :: dedupAux (x :: seen) xs

def dedupFirst (l : List Tok) : List Tok := dedupAux [] l

/-- The dedup step the main loop applies to each accumulator after all
declarations are processed and before emission
(`data.domains = [...new Set(data.domains)]`, same for subnets). -/
def finalizeData (d : OutboundData) : OutboundData :=
  ⟨dedupFirst d.domains, dedupFirst d.subnets⟩

/-- One block of the emitted rule list. -/
inductive RuleBlock
  | domainSuffix (domains : List Tok)
  | ipCidr (subnets : List Tok)
deriving DecidableEq, Repr

/-- The emitted rule-set document (`{ version: 3, rules }`). -/
structure RuleSetDoc where
  version : Nat
  rules : List RuleBlock
deriving DecidableEq, Repr

/-- The pure content of `generateSrs`: push a `domain_suffix` block when
domains are non-empty, then an `ip_cidr` block when subnets are non-empty;
when the rule list is empty, return without producing a document (`none`
models the logged skip, which is an early `return`, not a raised error). -/
def generateSrs (data : OutboundData) : Option RuleSetDoc :=
  let rules :=
    (if 0 < data.domains.length then [RuleBlock.domainSuffix data.domains] else [])
      ++ (if 0 < data.subnets.length then [RuleBlock.ipCidr data.subnets] else [])
  if rules.length = 0 then none else some ⟨3, rules⟩

/-- Claim C1's reading of `isIpOrCidr`, followed verbatim: split the token on
the FIRST `/` into an address part and a prefix part (the prefix is all the
text after the first `/`), with no trimming.  This definition follows the
claim's words, to be compared with `isIpOrCidr` from the source. -/
def isIpOrCidrFirstSlash (value : Tok) : Bool :=
  let addr := value.takeWhile (fun c => c != '/')
  let hasSlash := value.contains '/'
  let pfx := (value.dropWhile (fun c => c != '/')).drop 1
  if addr.isEmpty then false
  else if hasSlash && !pfx.isEmpty && !isDigits pfx then false
  else if isIPv4 addr then !hasSlash || decide (digitsToNat pfx ≤ 32)
  else if isIPv6 addr then !hasSlash || decide (digitsToNat pfx ≤ 128)
  else false

/-- `isIpOrCidr` as the amended claim C1 describes it: trim the token, then
take as address the text before the first `/` and as prefix the text between
the first and the second `/` (text after a second `/` is discarded); the
prefix is absent when there is no `/`; an empty prefix counts as numeric
value 0.  Written from the amended claim's words, with separate
`takeWhile`/`dropWhile` extraction rather than the source's `split`. -/
def isIpOrCidrAmendedSpec (value : Tok) : Bool :=
  let v := jsTrim value
  let addr := v.takeWhile (fun c => c != '/')
  let hasSlash := v.contains '/'
  let pfx := ((v.dropWhile (fun c => c != '/')).drop 1).takeWhile (fun c => c != '/')
  if addr.isEmpty then false
  else if hasSlash && !pfx.isEmpty && !isDigits pfx then false
  else if isIPv4 addr then !hasSlash || decide (digitsToNat pfx ≤ 32)
  else if isIPv6 addr then !hasSlash || decide (digitsToNat pfx ≤ 128)
  else false

/-- Claim C3's reading of `normalizeDomainSuffix`, followed verbatim: trim,
lowercase, strip a leading `*.` if present and OTHERWISE (else) strip a single
leading `.` if present.  This definition follows the claim's words, to be
compared with `normalizeDomainSuffix` from the source. -/
def normalizeDomainSuffixElse (value : Tok) : Tok :=
  let v0 := jsToLower (jsTrim value)
  if hasPre ['*', '.'] v0 then v0.drop 2
  else if hasPre ['.'] v0 then v0.drop 1
  else v0

/-- The token-splits-into-four-digit-parts condition of claim C2, written as a
proposition over the split parts ("each part consisting only of decimal
digits" read as matching `/^\d+$/`, i.e. non-empty and all digits, as the
spec's "all-decimal-digit" says). -/
def IPv4Spec (t : Tok) : Prop :=
  (splitOn '.' t).length = 4 ∧
    ∀ p ∈ splitOn '.' t, p ≠ [] ∧ (∀ c ∈ p, c.isDigit = true) ∧ digitsToNat p ≤ 255

/-- The heuristic IPv6 condition of claim C2: contains at least one `:` and
consists solely of hex digits and `:`. -/
def IPv6Spec (t : Tok) : Prop :=
  ':' ∈ t ∧ ∀ c ∈ t, isHexChar c = true ∨ c = ':'

/-- How claim C5 routes one mixed-list entry. -/
inductive MixedRoute
  | skip
  | toSubnet (cidr : Tok)
  | nested (src : Tok)
  | toDomain (dom : Tok)
deriving DecidableEq, Repr

/-- The routing table of claim C5 for an entry of `rule.list` (first match
wins after trimming): blank entries are skipped, `isIpOrCidr` entries become
normalized subnets, scheme-or-slash entries are nested source references, and
everything else becomes a normalized domain suffix. -/
def mixedRouteSpec (entry : Tok) : MixedRoute :=
  let v := jsTrim entry
  if v.isEmpty then .skip
  else if isIpOrCidr v then .toSubnet (normalizeCidr v)
  else if hasPre "http://".data v || hasPre "https://".data v || v.contains '/' then .nested v
  else .toDomain (normalizeDomainSuffix v)

/-- First-occurrence deduplication as the claim C6 words it, written in the
opposite direction from the source's seen-set loop: keep the head, and remove
later duplicates of it from the deduplicated tail. -/
def keepFirsts : List Tok → List Tok
  | [] => []
  | x :: xs => x :: (keepFirsts xs).filter (fun y => y != x)

/-- The invariant of §3: accumulator contents are normalizer outputs. -/
def NormalizedAcc (d : OutboundData) : Prop :=
  (∀ x ∈ d.domains, ∃ t, x = normalizeDomainSuffix t) ∧
  (∀ x ∈ d.subnets, ∃ t, x = normalizeCidr t)

example : isIpOrCidr "10.0.0.0/8".data = true := by decide
example : isIpOrCidr "10.0.0.0/33".data = false := by decide
example : isIpOrCidr "example.com".data = false := by decide
example : isIpOrCidr "::1/129".data = false := by decide
example : isIpOrCidr "1.2.3.4/8/9".data = true := by decide
example : isIpOrCidr "1.2.3.4/".data = true := by decide
example : classifyIp "1.2.3.4".data = .IPv4 := by decide
example : classifyIp "300.1.1.1".data = .NotIp := by decide
example : classifyIp "::1".data = .IPv6 := by decide
example : classifyIp "example.com".data = .NotIp := by decide
example : normalizeDomainSuffix "*.Example.COM ".data = "example.com".data := by decide
example : normalizeDomainSuffix ".example.com".data = "example.com".data := by decide
example : normalizeDomainSuffix "*..example.com".data = "example.com".data := by decide
example : normalizeCidr "1.2.3.4".data = "1.2.3.4/32".data := by decide
example : normalizeCidr "::1".data = "::1/128".data := by decide
example : normalizeCidr "10.0.0.0/8".data = "10.0.0.0/8".data := by decide

/-! ## Character-level lemmas -/

theorem upperTable_facts :
    ∀ c ∈ "ABCDEFGHIJKLMNOPQRSTUVWXYZ".data,
      isWS (lowerChar c) = false ∧ isWS c = false ∧ lowerChar (lowerChar c) = lowerChar c := by
  decide

theorem lowerChar_eq_self {c : Char} (h : c ∉ "ABCDEFGHIJKLMNOPQRSTUVWXYZ".data) :
    lowerChar c = c := by
  have hn : ∀ d : Char, d ∈ "ABCDEFGHIJKLMNOPQRSTUVWXYZ".data → ¬ (c == d) = true := by
    intro d hd hb
    exact h (by rw [eq_of_beq hb]; exact hd)
  unfold lowerChar
  rw [if_neg (hn 'A' (by decide)), if_neg (hn 'B' (by decide)), if_neg (hn 'C' (by decide)),
    if_neg (hn 'D' (by decide)), if_neg (hn 'E' (by decide)), if_neg (hn 'F' (by decide)),
    if_neg (hn 'G' (by decide)), if_neg (hn 'H' (by decide)), if_neg (hn 'I' (by decide)),
    if_neg (hn 'J' (by decide)), if_neg (hn 'K' (by decide)), if_neg (hn 'L' (by decide)),
    if_neg (hn 'M' (by decide)), if_neg (hn 'N' (by decide)), if_neg (hn 'O' (by decide)),
    if_neg (hn 'P' (by decide)), if_neg (hn 'Q' (by decide)), if_neg (hn 'R' (by decide)),
    if_neg (hn 'S' (by decide)), if_neg (hn 'T' (by decide)), if_neg (hn 'U' (by decide)),
    if_neg (hn 'V' (by decide)), if_neg (hn 'W' (by decide)), if_neg (hn 'X' (by decide)),
    if_neg (hn 'Y' (by decide)), if_neg (hn 'Z' (by decide))]

theorem lowerChar_lowerChar (c : Char) : lowerChar (lowerChar c) = lowerChar c := by
  by_cases h : c ∈ "ABCDEFGHIJKLMNOPQRSTUVWXYZ".data
  · exact (upperTable_facts c h).2.2
  · simp [lowerChar_eq_self h]

theorem isWS_lowerChar (c : Char) : isWS (lowerChar c) = isWS c := by
  by_cases h : c ∈ "ABCDEFGHIJKLMNOPQRSTUVWXYZ".data
  · rw [(upperTable_facts c h).1, (upperTable_facts c h).2.1]
  · rw [lowerChar_eq_self h]

/-! ## Trim lemmas -/

theorem dropWhile_dropWhile_self {α : Type} (p : α → Bool) (l : List α) :
    (l.dropWhile p).dropWhile p = l.dropWhile p := by
  induction l with
  | nil => rfl
  | cons a t ih =>
    by_cases h : p a
    · simp [List.dropWhile_cons, h, ih]
    · simp [List.dropWhile_cons, h]

theorem trimEnd_cons_of_neg {a : Char} {t : Tok} (h : ¬ isWS a = true) :
    trimEnd (a :: t) = a :: trimEnd t := by
  unfold trimEnd
  rw [List.reverse_cons, List.dropWhile_append]
  split
  · next he =>
    rw [List.isEmpty_iff] at he
    rw [he, List.dropWhile_cons_of_neg h]
    simp
  · next he =>
    rw [List.reverse_append]
    simp

theorem trimEnd_trimEnd (l : Tok) : trimEnd (trimEnd l) = trimEnd l := by
  unfold trimEnd
  rw [List.reverse_reverse, dropWhile_dropWhile_self]

theorem dropWhile_trimEnd_dropWhile (l : Tok) :
    (trimEnd (l.dropWhile isWS)).dropWhile isWS = trimEnd (l.dropWhile isWS) := by
  cases hm : l.dropWhile isWS with
  | nil => simp [trimEnd]
  | cons a t =>
    have ha : isWS a = false := by
      have h0 := List.head?_dropWhile_not isWS l
      rw [hm] at h0
      simpa using h0
    rw [trimEnd_cons_of_neg (by simp [ha]), List.dropWhile_cons_of_neg (by simp [ha])]

theorem jsTrim_jsTrim (l : Tok) : jsTrim (jsTrim l) = jsTrim l := by
  unfold jsTrim
  rw [dropWhile_trimEnd_dropWhile l, trimEnd_trimEnd]

theorem dropWhile_isWS_map_lowerChar (l : Tok) :
    (l.map lowerChar).dropWhile isWS = (l.dropWhile isWS).map lowerChar := by
  have hws : (isWS ∘ lowerChar) = isWS := funext isWS_lowerChar
  rw [List.dropWhile_map, hws]

theorem trimEnd_map_lowerChar (l : Tok) :
    trimEnd (l.map lowerChar) = (trimEnd l).map lowerChar := by
  unfold trimEnd
  rw [← List.map_reverse, dropWhile_isWS_map_lowerChar, List.map_reverse]

theorem jsTrim_map_lowerChar (l : Tok) :
    jsTrim (l.map lowerChar) = (jsTrim l).map lowerChar := by
  unfold jsTrim
  rw [dropWhile_isWS_map_lowerChar, trimEnd_map_lowerChar]

theorem jsToLower_jsToLower (l : Tok) : jsToLower (jsToLower l) = jsToLower l := by
  unfold jsToLower
  rw [List.map_map]
  have : (lowerChar ∘ lowerChar) = lowerChar := funext lowerChar_lowerChar
  rw [this]

theorem jsTrim_jsToLower_jsTrim (l : Tok) :
    jsTrim (jsToLower (jsTrim l)) = jsToLower (jsTrim l) := by
  unfold jsToLower
  rw [jsTrim_map_lowerChar, jsTrim_jsTrim]

theorem jsTrim_eq_self_of_no_ws {l : Tok} (h : ∀ c ∈ l, isWS c = false) : jsTrim l = l := by
  unfold jsTrim trimEnd
  have h1 : l.dropWhile isWS = l := by
    cases l with
    | nil => rfl
    | cons a t => exact List.dropWhile_cons_of_neg (by simp [h a (by simp)])
  rw [h1]
  have h2 : l.reverse.dropWhile isWS = l.reverse := by
    cases hr : l.reverse with
    | nil => rfl
    | cons a t =>
      have ha : a ∈ l := by
        rw [← List.mem_reverse, hr]
        simp
      exact List.dropWhile_cons_of_neg (by simp [h a ha])
  rw [h2, List.reverse_reverse]

/-! ## splitOn lemmas -/

theorem splitOn_ne_nil (sep : Char) (l : Tok) : splitOn sep l ≠ [] := by
  induction l with
  | nil => simp [splitOn]
  | cons c cs ih =>
    simp only [splitOn]
    cases hb : (c == sep)
    · simp only [Bool.false_eq_true, if_neg]
      cases hsp : splitOn sep cs with
      | nil => exact absurd hsp ih
      | cons p ps => simp
    · simp

theorem splitOn_of_not_mem {sep : Char} {l : Tok} (h : sep ∉ l) : splitOn sep l = [l] := by
  induction l with
  | nil => rfl
  | cons c cs ih =>
    rw [List.mem_cons, not_or] at h
    have hc : (c == sep) = false := by
      cases hb : (c == sep)
      · rfl
      · exact absurd (eq_of_beq hb).symm h.1
    simp [splitOn, hc, ih h.2]

theorem splitOn_of_mem {sep : Char} {l : Tok} (h : sep ∈ l) :
    splitOn sep l =
      l.takeWhile (fun c => c != sep) ::
        splitOn sep ((l.dropWhile (fun c => c != sep)).drop 1) := by
  induction l with
  | nil => cases h
  | cons c cs ih =>
    by_cases hc : c = sep
    · subst hc
      have hb : (c == c) = true := by simp
      simp [splitOn, hb, List.takeWhile_cons, List.dropWhile_cons]
    · have hb : (c == sep) = false := by
        cases hb2 : (c == sep)
        · rfl
        · exact absurd (eq_of_beq hb2) hc
      have hmem : sep ∈ cs := by
        rcases List.mem_cons.1 h with h1 | h1
        · exact absurd h1.symm hc
        · exact h1
      have hbne : ((c != sep) = true) := by simp [bne, hb]
      have hstep : splitOn sep (c :: cs) =
          match splitOn sep cs with
          | [] => [[c]]
          | p :: ps => (c :: p) :: ps := by
        simp [splitOn, hb]
      rw [hstep, ih hmem, List.takeWhile_cons, List.dropWhile_cons, if_pos hbne, if_pos hbne]

theorem splitOn_eq_cons (sep : Char) (l : Tok) :
    splitOn sep l = l.takeWhile (fun c => c != sep) :: (splitOn sep l).tail := by
  by_cases h : sep ∈ l
  · rw [splitOn_of_mem h]
    rfl
  · have ht : l.takeWhile (fun c => c != sep) = l := by
      rw [List.takeWhile_eq_self_iff]
      intro x hx
      simp only [bne_iff_ne, ne_eq]
      intro hxs
      exact h (hxs ▸ hx)
    rw [splitOn_of_not_mem h, ht]
    rfl

/-! ## hasPre lemmas -/

theorem hasPre_iff (p l : List Char) : hasPre p l = true ↔ ∃ t, l = p ++ t := by
  induction p generalizing l with
  | nil => simp [hasPre]
  | cons a ps ih =>
    cases l with
    | nil =>
      simp only [hasPre]
      constructor
      · intro h
        cases h
      · rintro ⟨t, ht⟩
        cases ht
    | cons b bs =>
      simp only [hasPre, Bool.and_eq_true, beq_iff_eq, ih]
      constructor
      · rintro ⟨rfl, t, rfl⟩
        exact ⟨t, rfl⟩
      · rintro ⟨t, ht⟩
        rw [List.cons_append] at ht
        cases ht
        exact ⟨rfl, t, rfl⟩

/-! ## Bool bridges -/

theorem contains_eq_true_iff (l : Tok) (c : Char) : l.contains c = true ↔ c ∈ l := by
  simp [List.contains, List.elem_iff]

theorem contains_eq_false_iff (l : Tok) (c : Char) : l.contains c = false ↔ c ∉ l := by
  rw [← Bool.not_eq_true, not_iff_not, contains_eq_true_iff]

theorem isEmpty_eq_true_iff (l : Tok) : l.isEmpty = true ↔ l = [] := by
  cases l <;> simp


theorem hasPre_append_left (p q l : List Char) (h : hasPre (p ++ q) l = true) :
    hasPre p l = true := by
  obtain ⟨t, rfl⟩ := (hasPre_iff _ _).1 h
  exact (hasPre_iff _ _).2 ⟨q ++ t, by simp⟩

/-! ## Claim C3 -/

/-- C3 counterexample: the claim's `else` reading (`normalizeDomainSuffixElse`)
and the source's two sequential strips disagree at `"*..example.com"`: the
source strips `*.` and then also strips the now-leading `.`, giving
`"example.com"`, while the claim's else-version stops after stripping `*.`,
giving `".example.com"`. -/
theorem normalizeDomainSuffix_else_counterexample :
    normalizeDomainSuffixElse "*..example.com".data = ".example.com".data ∧
    normalizeDomainSuffix "*..example.com".data = "example.com".data ∧
    normalizeDomainSuffix "*..example.com".data ≠
      normalizeDomainSuffixElse "*..example.com".data := by
  refine ⟨by decide, by decide, by decide⟩

/-- C3 (amended): `normalizeDomainSuffix` trims, lowercases, strips a leading
`*.` if present, and THEN strips a single leading `.` if present — the two
strips are sequential, so both can apply to one token.  Equivalently, writing
`v` for the trimmed lowercased token, the result drops a prefix of length 3
when `v` starts with `*..`, else 2 when it starts with `*.`, else 1 when it
starts with `.`, else 0.  The claim's two examples hold. -/
theorem normalizeDomainSuffix_amended (t : Tok) :
    normalizeDomainSuffix t =
      (jsToLower (jsTrim t)).drop
        (if hasPre ['*', '.', '.'] (jsToLower (jsTrim t)) then 3
         else if hasPre ['*', '.'] (jsToLower (jsTrim t)) then 2
         else if hasPre ['.'] (jsToLower (jsTrim t)) then 1
         else 0) ∧
    normalizeDomainSuffix "*.Example.COM ".data = "example.com".data ∧
    normalizeDomainSuffix ".example.com".data = "example.com".data := by
  refine ⟨?_, by decide, by decide⟩
  simp only [normalizeDomainSuffix]
  generalize jsToLower (jsTrim t) = v
  by_cases h2 : hasPre ['*', '.'] v = true
  · obtain ⟨r, rfl⟩ : ∃ r, v = '*' :: '.' :: r := by
      obtain ⟨r, hr⟩ := (hasPre_iff _ _).1 h2
      exact ⟨r, by simpa using hr⟩
    by_cases h3 : hasPre ['.'] r = true
    · obtain ⟨r2, rfl⟩ : ∃ r2, r = '.' :: r2 := by
        obtain ⟨r2, hr⟩ := (hasPre_iff _ _).1 h3
        exact ⟨r2, by simpa using hr⟩
      simp [hasPre]
    · have h3f : hasPre ['.'] r = false := by
        cases hb : hasPre ['.'] r
        · rfl
        · exact absurd hb h3
      simp [hasPre, h3f]
  · have h2f : hasPre ['*', '.'] v = false := by
      cases hb : hasPre ['*', '.'] v
      · rfl
      · exact absurd hb h2
    have hdd : hasPre ['*', '.', '.'] v = false := by
      cases hb : hasPre ['*', '.', '.'] v
      · rfl
      · exact absurd (hasPre_append_left ['*', '.'] ['.'] v (by simpa using hb)) h2
    by_cases h1 : hasPre ['.'] v = true
    · obtain ⟨r, rfl⟩ : ∃ r, v = '.' :: r := by
        obtain ⟨r, hr⟩ := (hasPre_iff _ _).1 h1
        exact ⟨r, by simpa using hr⟩
      simp [h2f, hdd, h1]
    · have h1f : hasPre ['.'] v = false := by
        cases hb : hasPre ['.'] v
        · rfl
        · exact absurd hb h1
      simp [h2f, hdd, h1f]

/-! ## Claim C9 -/

/-- C9 counterexample: `normalizeDomainSuffix` is not idempotent.  At
`"*.*.example.com"` one application gives `"*.example.com"` (the `*.` strip
exposes a new `*.`), and a second application strips again. -/
theorem normalizeDomainSuffix_idem_counterexample :
    normalizeDomainSuffix (normalizeDomainSuffix "*.*.example.com".data) ≠
      normalizeDomainSuffix "*.*.example.com".data := by
  decide

/-- C9 (amended): `normalizeDomainSuffix` is idempotent on every token whose
trimmed, lowercased form starts with neither `*.` nor `.` (no strip applies;
in general a second application can strip further, as the counterexample
shows). -/
theorem normalizeDomainSuffix_idem_amended (t : Tok)
    (h2 : hasPre ['*', '.'] (jsToLower (jsTrim t)) = false)
    (h1 : hasPre ['.'] (jsToLower (jsTrim t)) = false) :
    normalizeDomainSuffix (normalizeDomainSuffix t) = normalizeDomainSuffix t := by
  have hv : normalizeDomainSuffix t = jsToLower (jsTrim t) := by
    simp [normalizeDomainSuffix, h2, h1]
  rw [hv]
  simp [normalizeDomainSuffix, jsTrim_jsToLower_jsTrim, jsToLower_jsToLower, h2, h1]

/-- C9 witness: the amended idempotence applied at `"example.com"`. -/
theorem normalizeDomainSuffix_idem_amended_witness :
    normalizeDomainSuffix (normalizeDomainSuffix "example.com".data) =
      normalizeDomainSuffix "example.com".data :=
  normalizeDomainSuffix_idem_amended "example.com".data (by decide) (by decide)

/-! ## Claim C1 -/

/-- C1 counterexample: the claim says the token is split on the FIRST `/`, so
`"1.2.3.4/8/9"` would have prefix `"8/9"` (non-empty, not all digits) and be
rejected; the source's `split("/", 2)` keeps only the first two segments, so
the prefix is `"8"` and the token is accepted.  The claim also omits the
source's initial trim: `" 10.0.0.0/8"` is accepted by the source but rejected
under the claim's reading. -/
theorem isIpOrCidr_firstSlash_counterexample :
    isIpOrCidrFirstSlash "1.2.3.4/8/9".data = false ∧
    isIpOrCidr "1.2.3.4/8/9".data = true ∧
    isIpOrCidrFirstSlash " 10.0.0.0/8".data = false ∧
    isIpOrCidr " 10.0.0.0/8".data = true := by
  refine ⟨by decide, by decide, by decide, by decide⟩

/-- C1 (amended): `isIpOrCidr` first trims the token; it then takes as address
the text before the first `/` and as prefix the text between the first and
second `/` (anything after a second `/` is discarded); it returns false when
the address is empty or the prefix is present, non-empty and not all decimal
digits, and otherwise returns true iff the address classifies as IPv4 with the
prefix absent or of numeric value at most 32 (an empty prefix counts as 0), or
the address classifies as IPv6 with the prefix absent or of numeric value at
most 128.  The claim's four examples hold. -/
theorem isIpOrCidr_amended (t : Tok) :
    isIpOrCidr t = isIpOrCidrAmendedSpec t ∧
    isIpOrCidr "10.0.0.0/8".data = true ∧
    isIpOrCidr "10.0.0.0/33".data = false ∧
    isIpOrCidr "example.com".data = false ∧
    isIpOrCidr "::1/129".data = false := by
  refine ⟨?_, by decide, by decide, by decide, by decide⟩
  simp only [isIpOrCidr, isIpOrCidrAmendedSpec]
  generalize jsTrim t = v
  by_cases h : '/' ∈ v
  · have hc : v.contains '/' = true := (contains_eq_true_iff v '/').2 h
    rw [splitOn_of_mem h, splitOn_eq_cons '/' ((v.dropWhile (fun c => c != '/')).drop 1)]
    simp [hc, h]
  · have hc : v.contains '/' = false := (contains_eq_false_iff v '/').2 h
    have ht : v.takeWhile (fun c => c != '/') = v := by
      rw [List.takeWhile_eq_self_iff]
      intro x hx
      simp only [bne_iff_ne, ne_eq]
      intro hxs
      exact h (hxs ▸ hx)
    rw [splitOn_of_not_mem h]
    simp [hc, ht, h]

/-- C1 witness: the amended equivalence evaluated at `"10.0.0.0/8"`. -/
theorem isIpOrCidr_amended_witness :
    isIpOrCidr "10.0.0.0/8".data = isIpOrCidrAmendedSpec "10.0.0.0/8".data :=
  (isIpOrCidr_amended "10.0.0.0/8".data).1

/-! ## Claim C2 -/

theorem bool_eq_false_iff (b : Bool) : b = false ↔ ¬ b = true := by
  cases b <;> simp

theorem isIPv4_iff (t : Tok) : isIPv4 t = true ↔ IPv4Spec t := by
  simp [isIPv4, IPv4Spec, isDigits, List.all_eq_true, List.isEmpty_iff, and_assoc]

theorem isIPv6_iff (t : Tok) : isIPv6 t = true ↔ IPv6Spec t := by
  simp [isIPv6, IPv6Spec, List.all_eq_true, contains_eq_true_iff]

theorem classifyIp_eq_iff (v : Tok) :
    (classifyIp v = IpClass.IPv4 ↔ isIPv4 v = true) ∧
    (classifyIp v = IpClass.IPv6 ↔ isIPv4 v = false ∧ isIPv6 v = true) ∧
    (classifyIp v = IpClass.NotIp ↔ isIPv4 v = false ∧ isIPv6 v = false) := by
  unfold classifyIp
  cases hb4 : isIPv4 v <;> cases hb6 : isIPv6 v <;> simp

/-- C2: the classifier returns `IPv4` exactly when the token splits on `.`
into exactly 4 parts, each a non-empty all-digit string of value at most 255
(leading zeros allowed); it returns `IPv6` exactly when the token is not
IPv4-shaped, contains a `:` and consists solely of hex digits and `:`; it
returns `NotIp` otherwise.  The claim's four examples hold. -/
theorem classifyIp_spec (t : Tok) :
    (classifyIp t = IpClass.IPv4 ↔ IPv4Spec t) ∧
    (classifyIp t = IpClass.IPv6 ↔ ¬ IPv4Spec t ∧ IPv6Spec t) ∧
    (classifyIp t = IpClass.NotIp ↔ ¬ IPv4Spec t ∧ ¬ IPv6Spec t) ∧
    classifyIp "1.2.3.4".data = IpClass.IPv4 ∧
    classifyIp "300.1.1.1".data = IpClass.NotIp ∧
    classifyIp "::1".data = IpClass.IPv6 ∧
    classifyIp "example.com".data = IpClass.NotIp := by
  obtain ⟨e4, e6, en⟩ := classifyIp_eq_iff t
  refine ⟨?_, ?_, ?_, by decide, by decide, by decide, by decide⟩
  · rw [e4, isIPv4_iff]
  · rw [e6, bool_eq_false_iff, isIPv4_iff, isIPv6_iff]
  · rw [en, bool_eq_false_iff, bool_eq_false_iff, isIPv4_iff, isIPv6_iff]

/-- C2 witness: the characterization evaluated at `"1.2.3.4"`. -/
theorem classifyIp_spec_witness : IPv4Spec "1.2.3.4".data :=
  (classifyIp_spec "1.2.3.4".data).1.mp (by decide)

/-! ## Claim C4 -/

/-- C4: `normalizeCidr` trims the token; a trimmed token containing `/` is
returned unchanged; otherwise `/32` is appended when it classifies as IPv4,
`/128` when it classifies as IPv6, and a token that is neither passes through
unchanged (never an error).  The claim's three examples hold. -/
theorem normalizeCidr_spec (t : Tok) :
    ('/' ∈ jsTrim t → normalizeCidr t = jsTrim t) ∧
    ('/' ∉ jsTrim t → classifyIp (jsTrim t) = IpClass.IPv4 →
      normalizeCidr t = jsTrim t ++ "/32".data) ∧
    ('/' ∉ jsTrim t → classifyIp (jsTrim t) = IpClass.IPv6 →
      normalizeCidr t = jsTrim t ++ "/128".data) ∧
    ('/' ∉ jsTrim t → classifyIp (jsTrim t) = IpClass.NotIp →
      normalizeCidr t = jsTrim t) ∧
    normalizeCidr "1.2.3.4".data = "1.2.3.4/32".data ∧
    normalizeCidr "::1".data = "::1/128".data ∧
    normalizeCidr "10.0.0.0/8".data = "10.0.0.0/8".data := by
  obtain ⟨e4, e6, en⟩ := classifyIp_eq_iff (jsTrim t)
  refine ⟨?_, ?_, ?_, ?_, by decide, by decide, by decide⟩
  · intro h
    simp only [normalizeCidr]
    rw [if_pos ((contains_eq_true_iff _ _).2 h)]
  · intro h h4
    have hnc : ¬ (List.contains (jsTrim t) '/' = true) := by
      simpa using h
    simp only [normalizeCidr]
    rw [if_neg hnc, if_pos (e4.1 h4)]
  · intro h h6
    obtain ⟨hf4, ht6⟩ := e6.1 h6
    have hnc : ¬ (List.contains (jsTrim t) '/' = true) := by
      simpa using h
    simp only [normalizeCidr]
    rw [if_neg hnc, if_neg (by simp [hf4]), if_pos ht6]
  · intro h hn
    obtain ⟨hf4, hf6⟩ := en.1 hn
    have hnc : ¬ (List.contains (jsTrim t) '/' = true) := by
      simpa using h
    simp only [normalizeCidr]
    rw [if_neg hnc, if_neg (by simp [hf4]), if_neg (by simp [hf6])]

/-- C4 witness: the IPv4 case evaluated at `"1.2.3.4"`. -/
theorem normalizeCidr_spec_witness :
    normalizeCidr "1.2.3.4".data = jsTrim "1.2.3.4".data ++ "/32".data :=
  (normalizeCidr_spec "1.2.3.4".data).2.1 (by decide) (by decide)

/-! ## Claim C5 -/

/-- C5: each mixed-list entry is routed with first match winning after
trimming: a blank entry is skipped; an `isIpOrCidr` entry appends its
normalized CIDR to subnets; an entry starting with `http://`/`https://` or
containing `/` is a nested source reference whose loaded lines are each fed to
`addMixedEntry` (blank line discarded, `isIpOrCidr` line to subnets via
`normalizeCidr`, any other line to domains via `normalizeDomainSuffix`); any
remaining entry appends its normalized domain suffix to domains.  The claim's
three routing examples hold, the nested one also shown with a concrete load. -/
theorem mixed_entry_routing_spec (loader : Loader) (e : Tok) (d : OutboundData) :
    (processMixedEntry loader e d =
      match mixedRouteSpec e with
      | .skip => d
      | .toSubnet c => { d with subnets := d.subnets ++ [c] }
      | .nested src => (loader src).foldl (fun acc line => addMixedEntry line acc) d
      | .toDomain dom => { d with domains := d.domains ++ [dom] }) ∧
    (jsTrim e = [] → addMixedEntry e d = d) ∧
    (jsTrim e ≠ [] → isIpOrCidr (jsTrim e) = true →
      addMixedEntry e d = { d with subnets := d.subnets ++ [normalizeCidr (jsTrim e)] }) ∧
    (jsTrim e ≠ [] → isIpOrCidr (jsTrim e) = false →
      addMixedEntry e d =
        { d with domains := d.domains ++ [normalizeDomainSuffix (jsTrim e)] }) ∧
    mixedRouteSpec "10.0.0.0/24".data = MixedRoute.toSubnet "10.0.0.0/24".data ∧
    mixedRouteSpec "sub.example.com".data = MixedRoute.toDomain "sub.example.com".data ∧
    mixedRouteSpec "./extra-list.txt".data = MixedRoute.nested "./extra-list.txt".data ∧
    processMixedEntry (fun _ => ["9.9.9.9".data, "".data, "Sub.Example.com".data])
        "./extra-list.txt".data ⟨[], []⟩ =
      ⟨["sub.example.com".data], ["9.9.9.9/32".data]⟩ := by
  refine ⟨?_, ?_, ?_, ?_, by decide, by decide, by decide, by decide⟩
  · simp only [processMixedEntry, mixedRouteSpec]
    split_ifs <;> rfl
  · intro h
    simp [addMixedEntry, h]
  · intro h hip
    have hne : ¬ ((jsTrim e).isEmpty = true) := by simpa [isEmpty_eq_true_iff] using h
    simp only [addMixedEntry]
    rw [if_neg hne, if_pos hip]
  · intro h hip
    have hne : ¬ ((jsTrim e).isEmpty = true) := by simpa [isEmpty_eq_true_iff] using h
    simp only [addMixedEntry]
    rw [if_neg hne, if_neg (by simp [hip])]

/-- C5 witness: the subnet branch of the resolver evaluated at `"8.8.8.8"`. -/
theorem mixed_entry_routing_spec_witness :
    addMixedEntry "8.8.8.8".data ⟨[], []⟩ =
      { (⟨[], []⟩ : OutboundData) with
        subnets :=
          (⟨[], []⟩ : OutboundData).subnets ++ [normalizeCidr (jsTrim "8.8.8.8".data)] } :=
  (mixed_entry_routing_spec (fun _ => []) "8.8.8.8".data ⟨[], []⟩).2.2.1 (by decide) (by decide)

/-! ## Claim C6 -/

theorem mem_dedupAux (seen : List Tok) (l : List Tok) (x : Tok) :
    x ∈ dedupAux seen l ↔ x ∈ l ∧ x ∉ seen := by
  induction l generalizing seen with
  | nil => simp [dedupAux]
  | cons a as ih =>
    by_cases h : a ∈ seen
    · rw [show dedupAux seen (a :: as) = dedupAux seen as from by simp [dedupAux, h], ih]
      constructor
      · rintro ⟨hx, hs⟩
        exact ⟨List.mem_cons_of_mem _ hx, hs⟩
      · rintro ⟨hx, hs⟩
        rcases List.mem_cons.1 hx with rfl | hx2
        · exact absurd h hs
        · exact ⟨hx2, hs⟩
    · rw [show dedupAux seen (a :: as) = a :: dedupAux (a :: seen) as from by
        simp [dedupAux, h]]
      constructor
      · intro hmem
        rcases List.mem_cons.1 hmem with rfl | hmem2
        · exact ⟨List.mem_cons_self _ _, h⟩
        · obtain ⟨hx, hs⟩ := (ih (a :: seen)).1 hmem2
          exact ⟨List.mem_cons_of_mem _ hx, fun hxs => hs (List.mem_cons_of_mem _ hxs)⟩
      · rintro ⟨hx, hs⟩
        rcases List.mem_cons.1 hx with rfl | hx2
        · exact List.mem_cons_self _ _
        · by_cases hxa : x = a
          · subst hxa
            exact List.mem_cons_self _ _
          · refine List.mem_cons_of_mem _ ((ih (a :: seen)).2 ⟨hx2, fun hxs => ?_⟩)
            rcases List.mem_cons.1 hxs with h1 | h1
            · exact hxa h1
            · exact hs h1

theorem nodup_dedupAux (seen : List Tok) (l : List Tok) : (dedupAux seen l).Nodup := by
  induction l generalizing seen with
  | nil => simp [dedupAux]
  | cons a as ih =>
    by_cases h : a ∈ seen
    · rw [show dedupAux seen (a :: as) = dedupAux seen as from by simp [dedupAux, h]]
      exact ih seen
    · rw [show dedupAux seen (a :: as) = a :: dedupAux (a :: seen) as from by
        simp [dedupAux, h]]
      refine List.nodup_cons.2 ⟨?_, ih (a :: seen)⟩
      intro hmem
      exact ((mem_dedupAux _ _ _).1 hmem).2 (List.mem_cons_self a seen)

theorem dedupAux_eq_keepFirsts_filter (seen : List Tok) (l : List Tok) :
    dedupAux seen l = (keepFirsts l).filter (fun y => decide (y ∉ seen)) := by
  induction l generalizing seen with
  | nil => simp [dedupAux, keepFirsts]
  | cons a as ih =>
    by_cases h : a ∈ seen
    · rw [show dedupAux seen (a :: as) = dedupAux seen as from by simp [dedupAux, h], ih seen]
      simp only [keepFirsts, List.filter_cons]
      rw [if_neg (by simp [h]), List.filter_filter]
      refine (List.filter_congr ?_).symm
      intro y hy
      by_cases hya : y = a
      · subst hya
        simp [h]
      · simp [hya]
    · rw [show dedupAux seen (a :: as) = a :: dedupAux (a :: seen) as from by
        simp [dedupAux, h], ih (a :: seen)]
      simp only [keepFirsts, List.filter_cons]
      rw [if_pos (by simp [h]), List.filter_filter]
      congr 1
      refine List.filter_congr ?_
      intro y hy
      by_cases hya : y = a
      · subst hya
        simp
      · by_cases hys : y ∈ seen
        · simp [hya, hys]
        · simp [hya, hys]

theorem dedupFirst_eq_keepFirsts (l : List Tok) : dedupFirst l = keepFirsts l := by
  rw [dedupFirst, dedupAux_eq_keepFirsts_filter]
  refine List.filter_eq_self.2 ?_
  intro y hy
  simp

/-- C6: finalization deduplicates `domains` and `subnets` independently and
exactly once: each finalized sequence has no duplicates, has exactly the
members of its pre-finalization sequence, and is determined as the
first-occurrence subsequence (`keepFirsts`) of it — a deterministic order for
a fixed input. -/
theorem finalizeData_spec (d : OutboundData) :
    (finalizeData d).domains.Nodup ∧
    (finalizeData d).subnets.Nodup ∧
    (∀ x, x ∈ (finalizeData d).domains ↔ x ∈ d.domains) ∧
    (∀ x, x ∈ (finalizeData d).subnets ↔ x ∈ d.subnets) ∧
    (finalizeData d).domains = keepFirsts d.domains ∧
    (finalizeData d).subnets = keepFirsts d.subnets := by
  refine ⟨nodup_dedupAux _ _, nodup_dedupAux _ _, ?_, ?_,
    dedupFirst_eq_keepFirsts _, dedupFirst_eq_keepFirsts _⟩
  · intro x
    rw [show (finalizeData d).domains = dedupAux [] d.domains from rfl, mem_dedupAux]
    simp
  · intro x
    rw [show (finalizeData d).subnets = dedupAux [] d.subnets from rfl, mem_dedupAux]
    simp

/-- C6 witness: finalization evaluated on a duplicated domain list. -/
theorem finalizeData_spec_witness :
    (finalizeData ⟨["a".data, "b".data, "a".data], []⟩).domains =
      keepFirsts ["a".data, "b".data, "a".data] :=
  (finalizeData_spec ⟨["a".data, "b".data, "a".data], []⟩).2.2.2.2.1

/-! ## Claim C7 -/

/-- C7: the emitter produces a version-3 document whose rule list holds a
`domain_suffix` block only when domains are non-empty, then an `ip_cidr` block
only when subnets are non-empty, in that order; when both are empty no
document is produced (the outbound is skipped, not an error — the embedding is
a total function returning `none`, matching the early `return` in the
source). -/
theorem generateSrs_spec (d : OutboundData) :
    (generateSrs d = none ↔ d.domains = [] ∧ d.subnets = []) ∧
    (d.domains ≠ [] → d.subnets = [] →
      generateSrs d = some ⟨3, [RuleBlock.domainSuffix d.domains]⟩) ∧
    (d.domains = [] → d.subnets ≠ [] →
      generateSrs d = some ⟨3, [RuleBlock.ipCidr d.subnets]⟩) ∧
    (d.domains ≠ [] → d.subnets ≠ [] →
      generateSrs d =
        some ⟨3, [RuleBlock.domainSuffix d.domains, RuleBlock.ipCidr d.subnets]⟩) := by
  rcases d with ⟨ds, ss⟩
  cases ds <;> cases ss <;> simp [generateSrs]

/-- C7 witness: the domains-only case evaluated at a one-domain accumulator. -/
theorem generateSrs_spec_witness :
    generateSrs ⟨["example.com".data], []⟩ =
      some ⟨3, [RuleBlock.domainSuffix ["example.com".data]]⟩ :=
  (generateSrs_spec ⟨["example.com".data], []⟩).2.1 (by decide) rfl

/-! ## Claim C8 -/

theorem normalizedAcc_push_subnet {d : OutboundData} (hd : NormalizedAcc d) (t : Tok) :
    NormalizedAcc { d with subnets := d.subnets ++ [normalizeCidr t] } := by
  refine ⟨hd.1, ?_⟩
  intro x hx
  rcases List.mem_append.1 hx with hx | hx
  · exact hd.2 x hx
  · rw [List.mem_singleton] at hx
    exact ⟨t, hx⟩

theorem normalizedAcc_push_domain {d : OutboundData} (hd : NormalizedAcc d) (t : Tok) :
    NormalizedAcc { d with domains := d.domains ++ [normalizeDomainSuffix t] } := by
  refine ⟨?_, hd.2⟩
  intro x hx
  rcases List.mem_append.1 hx with hx | hx
  · exact hd.1 x hx
  · rw [List.mem_singleton] at hx
    exact ⟨t, hx⟩

theorem normalizedAcc_addMixedEntry {d : OutboundData} (hd : NormalizedAcc d) (line : Tok) :
    NormalizedAcc (addMixedEntry line d) := by
  simp only [addMixedEntry]
  split_ifs with h1 h2
  · exact hd
  · exact normalizedAcc_push_subnet hd _
  · exact normalizedAcc_push_domain hd _

theorem normalizedAcc_foldl_add {d : OutboundData} (hd : NormalizedAcc d)
    (lines : List Tok) :
    NormalizedAcc (lines.foldl (fun acc line => addMixedEntry line acc) d) := by
  induction lines generalizing d with
  | nil => exact hd
  | cons a as ih => exact ih (normalizedAcc_addMixedEntry hd a)

theorem normalizedAcc_processMixedEntry {d : OutboundData} (hd : NormalizedAcc d)
    (loader : Loader) (e : Tok) :
    NormalizedAcc (processMixedEntry loader e d) := by
  simp only [processMixedEntry]
  split_ifs with h1 h2 h3
  · exact hd
  · exact normalizedAcc_push_subnet hd _
  · exact normalizedAcc_foldl_add hd _
  · exact normalizedAcc_push_domain hd _

theorem normalizedAcc_append_domains {d : OutboundData} (hd : NormalizedAcc d)
    (lines : List Tok) :
    NormalizedAcc { d with domains := d.domains ++ lines.map normalizeDomainSuffix } := by
  refine ⟨?_, hd.2⟩
  intro x hx
  rcases List.mem_append.1 hx with hx | hx
  · exact hd.1 x hx
  · obtain ⟨y, _, hy⟩ := List.mem_map.1 hx
    exact ⟨y, hy.symm⟩

theorem normalizedAcc_append_subnets {d : OutboundData} (hd : NormalizedAcc d)
    (lines : List Tok) :
    NormalizedAcc { d with subnets := d.subnets ++ lines.map normalizeCidr } := by
  refine ⟨hd.1, ?_⟩
  intro x hx
  rcases List.mem_append.1 hx with hx | hx
  · exact hd.2 x hx
  · obtain ⟨y, _, hy⟩ := List.mem_map.1 hx
    exact ⟨y, hy.symm⟩

theorem normalizedAcc_processRule {d : OutboundData} (hd : NormalizedAcc d)
    (loader : Loader) (r : Rule) :
    NormalizedAcc (processRule loader r d) := by
  have hfold : ∀ (es : List Tok) (a : OutboundData), NormalizedAcc a →
      NormalizedAcc (es.foldl (fun acc e => processMixedEntry loader e acc) a) := by
    intro es
    induction es with
    | nil => intro a h; exact h
    | cons x xs ih =>
      intro a h
      exact ih _ (normalizedAcc_processMixedEntry h loader x)
  have hmatch1 : ∀ (o : Option Tok) (a : OutboundData), NormalizedAcc a →
      NormalizedAcc
        (match o with
          | some src =>
            if src.isEmpty then a
            else { a with domains := a.domains ++ (loader src).map normalizeDomainSuffix }
          | none => a) := by
    intro o a h
    rcases o with _ | src
    · exact h
    · show NormalizedAcc
        (if src.isEmpty = true then a
         else { a with domains := a.domains ++ (loader src).map normalizeDomainSuffix })
      by_cases hs : src.isEmpty = true
      · rw [if_pos hs]
        exact h
      · rw [if_neg hs]
        exact normalizedAcc_append_domains h _
  have hmatch2 : ∀ (o : Option Tok) (a : OutboundData), NormalizedAcc a →
      NormalizedAcc
        (match o with
          | some src =>
            if src.isEmpty then a
            else { a with subnets := a.subnets ++ (loader src).map normalizeCidr }
          | none => a) := by
    intro o a h
    rcases o with _ | src
    · exact h
    · show NormalizedAcc
        (if src.isEmpty = true then a
         else { a with subnets := a.subnets ++ (loader src).map normalizeCidr })
      by_cases hs : src.isEmpty = true
      · rw [if_pos hs]
        exact h
      · rw [if_neg hs]
        exact normalizedAcc_append_subnets h _
  simp only [processRule]
  by_cases hl : 0 < r.list.length
  · rw [if_pos hl]
    exact hfold _ _ (hmatch2 _ _ (hmatch1 _ _ hd))
  · rw [if_neg hl]
    exact hmatch2 _ _ (hmatch1 _ _ hd)

/-- C8: at every point during processing (after any sequence of rule
declarations has been merged, for every outbound key), every element of the
accumulated domains is an output of `normalizeDomainSuffix` and every element
of the accumulated subnets an output of `normalizeCidr`, whatever the loader
returns — no raw token reaches either sequence from any channel
(`rule.domains`, `rule.subnets`, or the mixed list including nested loads). -/
theorem runRules_normalized (loader : Loader) (rules : List Rule) (k : Tok) :
    (∀ x ∈ (runRules loader rules k).domains, ∃ t, x = normalizeDomainSuffix t) ∧
    (∀ x ∈ (runRules loader rules k).subnets, ∃ t, x = normalizeCidr t) := by
  suffices h : ∀ st : Tok → OutboundData, (∀ j, NormalizedAcc (st j)) →
      ∀ j, NormalizedAcc
        (rules.foldl
          (fun st rule k => if k = rule.outbound then processRule loader rule (st k) else st k)
          st j) by
    have hres := h (fun _ => ⟨[], []⟩) (fun _ => ⟨by simp, by simp⟩) k
    exact ⟨hres.1, hres.2⟩
  intro st hst
  induction rules generalizing st with
  | nil => exact hst
  | cons r rs ih =>
    apply ih
    intro j2
    show NormalizedAcc (if j2 = r.outbound then processRule loader r (st j2) else st j2)
    by_cases hj : j2 = r.outbound
    · rw [if_pos hj]
      exact normalizedAcc_processRule (hst j2) loader r
    · rw [if_neg hj]
      exact hst j2

/-- C8 witness: the invariant evaluated on one concrete mixed-list run. -/
theorem runRules_normalized_witness :
    ∃ t, "sub.example.com".data = normalizeDomainSuffix t :=
  (runRules_normalized (fun _ => [])
      [⟨none, none, ["sub.example.com".data], "proxy".data⟩] "proxy".data).1
    "sub.example.com".data (by decide)

/-! ## Claim C10 -/

theorem char_mem_splitOn (sep : Char) (l : Tok) :
    ∀ c ∈ l, c = sep ∨ ∃ p ∈ splitOn sep l, c ∈ p := by
  induction l with
  | nil =>
    intro c hc
    cases hc
  | cons a as ih =>
    intro c hc
    by_cases hb : (a == sep) = true
    · rcases List.mem_cons.1 hc with rfl | hc2
      · exact Or.inl (eq_of_beq hb)
      · rcases ih c hc2 with h | ⟨p, hp, hcp⟩
        · exact Or.inl h
        · refine Or.inr ⟨p, ?_, hcp⟩
          rw [show splitOn sep (a :: as) = [] :: splitOn sep as from by simp [splitOn, hb]]
          exact List.mem_cons_of_mem _ hp
    · have hbf : (a == sep) = false := by
        cases h2 : (a == sep)
        · rfl
        · exact absurd h2 hb
      cases hsp : splitOn sep as with
      | nil => exact absurd hsp (splitOn_ne_nil sep as)
      | cons q qs =>
        have hrw : splitOn sep (a :: as) = (a :: q) :: qs := by
          simp [splitOn, hbf, hsp]
        rcases List.mem_cons.1 hc with rfl | hc2
        · exact Or.inr ⟨c :: q, by rw [hrw]; exact List.mem_cons_self _ _,
            List.mem_cons_self _ _⟩
        · rcases ih c hc2 with h | ⟨p, hp, hcp⟩
          · exact Or.inl h
          · rw [hsp] at hp
            rcases List.mem_cons.1 hp with rfl | hp2
            · exact Or.inr ⟨a :: p, by rw [hrw]; exact List.mem_cons_self _ _,
                List.mem_cons_of_mem _ hcp⟩
            · exact Or.inr ⟨p, by rw [hrw]; exact List.mem_cons_of_mem _ hp2, hcp⟩

theorem ws_cases {c : Char} (hw : isWS c = true) :
    c = ' ' ∨ c = '\t' ∨ c = '\n' ∨ c = '\r' ∨ c = '\x0b' ∨ c = '\x0c' := by
  simpa [isWS, or_assoc] using hw

theorem isWS_eq_false_of_isDigit {c : Char} (h : c.isDigit = true) : isWS c = false := by
  cases hw : isWS c
  · rfl
  · rcases ws_cases hw with rfl | rfl | rfl | rfl | rfl | rfl <;> exact absurd h (by decide)

theorem isWS_eq_false_of_isHexChar {c : Char} (h : isHexChar c = true) : isWS c = false := by
  cases hw : isWS c
  · rfl
  · rcases ws_cases hw with rfl | rfl | rfl | rfl | rfl | rfl <;> exact absurd h (by decide)

theorem no_ws_of_isIPv4 {a : Tok} (h : isIPv4 a = true) : ∀ c ∈ a, isWS c = false := by
  intro c hc
  rcases char_mem_splitOn '.' a c hc with rfl | ⟨p, hp, hcp⟩
  · rfl
  · obtain ⟨hlen, hparts⟩ := (isIPv4_iff a).1 h
    exact isWS_eq_false_of_isDigit ((hparts p hp).2.1 c hcp)

theorem no_ws_of_isIPv6 {a : Tok} (h : isIPv6 a = true) : ∀ c ∈ a, isWS c = false := by
  intro c hc
  obtain ⟨hcol, hall⟩ := (isIPv6_iff a).1 h
  rcases hall c hc with hhex | rfl
  · exact isWS_eq_false_of_isHexChar hhex
  · rfl

/-- C10: a token of the form `addr ++ "/"` — one trailing `/` with nothing
after it, `addr` free of `/` — whose address part classifies as IPv4 or IPv6
is accepted by `isIpOrCidr` (the empty prefix gets numeric value 0, within
every range), is returned unchanged by `normalizeCidr` (it contains `/`), and
is therefore routed by the mixed-list resolver to the subnets bucket still
carrying its trailing slash. -/
theorem trailing_slash_spec (a : Tok) (hns : '/' ∉ a)
    (hc : isIPv4 a = true ∨ isIPv6 a = true) :
    isIpOrCidr (a ++ ['/']) = true ∧
    normalizeCidr (a ++ ['/']) = a ++ ['/'] ∧
    (∀ (loader : Loader) (d : OutboundData),
      processMixedEntry loader (a ++ ['/']) d =
        { d with subnets := d.subnets ++ [a ++ ['/']] }) := by
  have hnws : ∀ c ∈ a ++ ['/'], isWS c = false := by
    intro c hcm
    rcases List.mem_append.1 hcm with hcm | hcm
    · rcases hc with h4 | h6
      · exact no_ws_of_isIPv4 h4 c hcm
      · exact no_ws_of_isIPv6 h6 c hcm
    · rw [List.mem_singleton] at hcm
      subst hcm
      rfl
  have htrim : jsTrim (a ++ ['/']) = a ++ ['/'] := jsTrim_eq_self_of_no_ws hnws
  have hane : a ≠ [] := by
    rintro rfl
    rcases hc with h4 | h6
    · exact absurd h4 (by decide)
    · exact absurd h6 (by decide)
  have hmem : '/' ∈ a ++ ['/'] := List.mem_append.2 (Or.inr (List.mem_singleton.2 rfl))
  have hpos : ∀ c ∈ a, ((c != '/') = true) := by
    intro c hcm
    have : c ≠ '/' := fun he => hns (he ▸ hcm)
    simpa using this
  have hsplit : splitOn '/' (a ++ ['/']) = [a, []] := by
    rw [splitOn_of_mem hmem, List.takeWhile_append_of_pos hpos,
      List.dropWhile_append_of_pos hpos]
    have h1 : (['/'] : Tok).takeWhile (fun c => c != '/') = [] := by decide
    have h2 : (['/'] : Tok).dropWhile (fun c => c != '/') = ['/'] := by decide
    rw [h1, h2, List.append_nil]
    rfl
  have hioc : isIpOrCidr (a ++ ['/']) = true := by
    simp only [isIpOrCidr]
    rw [htrim, hsplit]
    have hne : ¬ (a.isEmpty = true) := by simpa [isEmpty_eq_true_iff] using hane
    rcases hc with h4 | h6
    · simp [hne, h4, isDigits, digitsToNat]
    · cases hb4 : isIPv4 a
      · simp [hne, hb4, h6, isDigits, digitsToNat]
      · simp [hne, hb4, isDigits, digitsToNat]
  have hnorm : normalizeCidr (a ++ ['/']) = a ++ ['/'] := by
    simp only [normalizeCidr]
    rw [htrim, if_pos ((contains_eq_true_iff _ _).2 hmem)]
  refine ⟨hioc, hnorm, ?_⟩
  intro loader d
  have hne2 : ¬ ((a ++ ['/']).isEmpty = true) := by
    simp [isEmpty_eq_true_iff]
  simp only [processMixedEntry]
  rw [htrim, if_neg hne2, if_pos hioc, hnorm]

/-- C10 witness: evaluated at `"1.2.3.4/"`. -/
theorem trailing_slash_spec_witness :
    isIpOrCidr ("1.2.3.4".data ++ ['/']) = true ∧
    normalizeCidr ("1.2.3.4".data ++ ['/']) = "1.2.3.4".data ++ ['/'] ∧
    (∀ (loader : Loader) (d : OutboundData),
      processMixedEntry loader ("1.2.3.4".data ++ ['/']) d =
        { d with subnets := d.subnets ++ ["1.2.3.4".data ++ ['/']] }) :=
  trailing_slash_spec "1.2.3.4".data (by decide) (Or.inl (by decide))
